import Mathlib

/-!
Verification of the Replicad-Prelude seeded RNG (`prelude.js`) against its
specification.  The JavaScript code is shallowly embedded: the generator state
(a JS number) is a rational, JS bitwise operations coerce through a 32-bit
unsigned view (`toUint32`), and fallible or fuel-bounded computations return
`Option`.
-/

namespace Replicad

/-- 2^32, the modulus of JS 32-bit coercion. -/
def M32 : ℕ := 4294967296

/-- JS `ToInt32`/`ToUint32` truncation toward zero of a number. -/
def jsTrunc (q : ℚ) : ℤ := if q < 0 then ⌈q⌉ else ⌊q⌋

/-- JS `ToUint32`: truncate toward zero, then reduce mod 2^32. -/
def toUint32 (q : ℚ) : ℕ := (jsTrunc q % (M32 : ℤ)).toNat

/-- The bit-mixing of `uniform()` on the 32-bit view `t` of the state:
`t = imul(t ^ t>>>15, t|1); t ^= t + imul(t ^ t>>>7, t|61); (t ^ t>>>14) >>> 0`.
All intermediate values are tracked as unsigned residues mod 2^32 (XOR, OR and
shifts act on the bit pattern, which signed and unsigned views share). -/
def mix32 (t : ℕ) : ℕ :=
  let t1 := ((t ^^^ (t >>> 15)) * (t ||| 1)) % M32
  let t2 := t1 ^^^ ((t1 + ((t1 ^^^ (t1 >>> 7)) * (t1 ||| 61)) % M32) % M32)
  t2 ^^^ (t2 >>> 14)

/-- `new RNG(seed)`: the constructor stores the seed verbatim as the state. -/
def mkRNG (seed : ℚ) : ℚ := seed

/-- `uniform()`: `let t = (this.state += 0x6d2b79f5)` followed by the bit mix,
returning the mixed 32-bit value divided by 4294967296.  The stored state is
the plain (unreduced) sum; only the mix coerces it to 32 bits. -/
def uniform (state : ℚ) : ℚ × ℚ :=
  let state' := state + 1831565813
  (((mix32 (toUint32 state')) : ℚ) / 4294967296, state')

/-- `uniformInt(min, max)`: `Math.floor(this.uniform() * (max - min) + min)`. -/
def uniformInt (min max : ℚ) (state : ℚ) : ℤ × ℚ :=
  let r := uniform state
  (⌊r.1 * (max - min) + min⌋, r.2)

/-- `choice(array)`: `array[this.uniformInt(0, array.length)]`; out-of-range
indexing (JS `undefined`) is modelled as `none`. -/
def choice {α : Type} (array : List α) (state : ℚ) : Option α × ℚ :=
  let r := uniformInt 0 (array.length : ℚ) state
  (array.get? r.1.toNat, r.2)

/-- `gaussian(mean, sd)`: Box–Muller, cosine branch only.
`u = 1 - uniform(); v = uniform(); z = sqrt(-2 ln u) cos(2 π v); z*sd + mean`. -/
noncomputable def gaussian (mean sd : ℝ) (state : ℚ) : ℝ × ℚ :=
  let u : ℝ := 1 - ((uniform state).1 : ℝ)
  let s1 : ℚ := (uniform state).2
  let v : ℝ := ((uniform s1).1 : ℝ)
  let z : ℝ := Real.sqrt (-2 * Real.log u) * Real.cos (2 * Real.pi * v)
  (z * sd + mean, (uniform s1).2)

/-- The body of `poisson`'s do-while loop (Knuth's algorithm), with explicit
fuel: `do { k++; p *= uniform() } while (p > L); return k - 1`. -/
noncomputable def poissonAux (L : ℝ) : ℕ → ℕ → ℝ → ℚ → Option (ℕ × ℚ)
  | 0, _, _, _ => none
  | fuel + 1, k, p, s =>
    let u := uniform s
    let p' := p * ((u.1 : ℝ))
    if p' > L then poissonAux L fuel (k + 1) p' u.2
    else some (k + 1 - 1, u.2)

/-- Fuel sufficient for `poissonAux`: every `uniform()` draw is at most
`4294967295 / 4294967296 < 1`, so some power of that bound drops below
`L = exp(-lambda) > 0`. -/
noncomputable def pFuel (lambda : ℝ) : ℕ :=
  Nat.find (exists_pow_lt_of_lt_one (Real.exp_pos (-lambda))
    (by norm_num : (4294967295 : ℝ) / 4294967296 < 1)) + 1

/-- `poisson(lambda)`: `L = exp(-lambda)`, counter starts at 0, accumulator at 1. -/
noncomputable def poisson (lambda : ℝ) (state : ℚ) : Option (ℕ × ℚ) :=
  poissonAux (Real.exp (-lambda)) (pFuel lambda) 0 1 state

/-- `magnitude(vector)`: square root of the summed squares. -/
noncomputable def magnitude (vector : List ℝ) : ℝ :=
  Real.sqrt (vector.foldl (fun sum value => sum + value * value) 0)

/-- `scale(vector, factor)`: componentwise multiplication. -/
noncomputable def scale (vector : List ℝ) (factor : ℝ) : List ℝ :=
  vector.map (fun value => value * factor)

/-- `normalize(vector)`: `mag === 0 ? vector : scale(vector, 1/mag)`. -/
noncomputable def normalize (vector : List ℝ) : List ℝ :=
  let mag := magnitude vector
  if mag = 0 then vector else scale vector (1 / mag)

/-- `gridIndex(x, y)` inside `poissonDisc`: flat cell index
`floor(x/cellSize) + floor(y/cellSize) * gridWidth`. -/
noncomputable def gridIndex (cellSize : ℝ) (gridWidth : ℤ) (x y : ℝ) : ℤ :=
  ⌊x / cellSize⌋ + ⌊y / cellSize⌋ * gridWidth

/-- `isValid(x, y)` inside `poissonDisc`: in bounds, and no stored neighbour in
the clamped 5×5 cell block around `(x, y)`'s cell lies strictly closer than
`radius` (squared-distance comparison). -/
def isValid (width height radius : ℝ) (gridWidth gridHeight : ℤ) (cellSize : ℝ)
    (grid : ℤ → Option ℕ) (points : List (ℝ × ℝ)) (x y : ℝ) : Prop :=
  0 ≤ x ∧ x < width ∧ 0 ≤ y ∧ y < height ∧
  ∀ ii jj : ℤ,
    max (⌊x / cellSize⌋ - 2) 0 ≤ ii → ii < min (⌊x / cellSize⌋ + 3) gridWidth →
    max (⌊y / cellSize⌋ - 2) 0 ≤ jj → jj < min (⌊y / cellSize⌋ + 3) gridHeight →
    ∀ idx p, grid (ii + jj * gridWidth) = some idx → points.get? idx = some p →
      radius * radius ≤ (x - p.1) * (x - p.1) + (y - p.2) * (y - p.2)

open Classical in
/-- The inner `for (n = 0; n < k; n++)` candidate loop of `poissonDisc`: each
attempt draws an angle and a radius in `[radius, 2*radius)` from the parent
point and stops at the first valid candidate. -/
noncomputable def tryCandidates (width height radius : ℝ) (gridWidth gridHeight : ℤ)
    (cellSize : ℝ) (grid : ℤ → Option ℕ) (points : List (ℝ × ℝ)) (px py : ℝ) :
    ℕ → ℚ → Option (ℝ × ℝ) × ℚ
  | 0, s => (none, s)
  | n + 1, s =>
    let a := uniform s
    let b := uniform a.2
    let angle : ℝ := (a.1 : ℝ) * 2 * Real.pi
    let rr : ℝ := radius + (b.1 : ℝ) * radius
    let x : ℝ := px + rr * Real.cos angle
    let y : ℝ := py + rr * Real.sin angle
    if isValid width height radius gridWidth gridHeight cellSize grid points x y then
      (some (x, y), b.2)
    else
      tryCandidates width height radius gridWidth gridHeight cellSize grid points px py n b.2

/-- The `while (active.length > 0)` loop of `poissonDisc`, with explicit fuel:
pick a random active point, try `k` candidates; on success append the new point
(and record its cell), otherwise retire the active point via `splice`. -/
noncomputable def pdLoop (width height radius : ℝ) (k : ℕ) (gridWidth gridHeight : ℤ)
    (cellSize : ℝ) :
    ℕ → (ℤ → Option ℕ) → List (ℝ × ℝ) → List ℕ → ℚ → Option (List (ℝ × ℝ) × ℚ)
  | 0, _, _, _, _ => none
  | fuel + 1, grid, points, active, s =>
    if active.length = 0 then some (points, s)
    else
      let ri := uniformInt 0 (active.length : ℚ) s
      let randomIndex : ℕ := ri.1.toNat
      let pointIndex : ℕ := active.getD randomIndex 0
      let p : ℝ × ℝ := points.getD pointIndex (0, 0)
      let t := tryCandidates width height radius gridWidth gridHeight cellSize
        grid points p.1 p.2 k ri.2
      match t.1 with
      | some q =>
        pdLoop width height radius k gridWidth gridHeight cellSize fuel
          (fun z => if z = gridIndex cellSize gridWidth q.1 q.2 then some points.length
            else grid z)
          (points ++ [q]) (active ++ [points.length]) t.2
      | none =>
        pdLoop width height radius k gridWidth gridHeight cellSize fuel grid points
          (active.eraseIdx randomIndex) t.2

/-- `poissonDisc(width, height, radius, k)`: cell size `radius/sqrt(2)`, grid
`ceil(width/cellSize) × ceil(height/cellSize)`, one uniformly drawn seed point,
then the active-set loop.  The fuel `2 * gridWidth * gridHeight` dominates the
loop's decreasing measure (shown in the termination theorem below). -/
noncomputable def poissonDisc (width height radius : ℝ) (k : ℕ) (state : ℚ) :
    Option (List (ℝ × ℝ) × ℚ) :=
  let cellSize := radius / Real.sqrt 2
  let gridWidth : ℤ := ⌈width / cellSize⌉
  let gridHeight : ℤ := ⌈height / cellSize⌉
  let u0 := uniform state
  let u1 := uniform u0.2
  let x0 : ℝ := (u0.1 : ℝ) * width
  let y0 : ℝ := (u1.1 : ℝ) * height
  pdLoop width height radius k gridWidth gridHeight cellSize
    (2 * (gridWidth.toNat * gridHeight.toNat))
    (fun z => if z = gridIndex cellSize gridWidth x0 y0 then some 0 else none)
    [(x0, y0)] [0] u1.2

/-- Invariant of `pdLoop`'s mutable state: all placed points are in bounds and
pairwise at squared distance at least `radius²`; the grid records exactly the
placed points, indexed by their cell; active indices refer to placed points. -/
structure PDInv (width height radius : ℝ) (gridWidth gridHeight : ℤ) (cellSize : ℝ)
    (grid : ℤ → Option ℕ) (points : List (ℝ × ℝ)) (active : List ℕ) : Prop where
  bounds : ∀ p ∈ points, 0 ≤ p.1 ∧ p.1 < width ∧ 0 ≤ p.2 ∧ p.2 < height
  spaced : points.Pairwise (fun p q =>
    radius * radius ≤ (p.1 - q.1) * (p.1 - q.1) + (p.2 - q.2) * (p.2 - q.2))
  complete : ∀ i p, points.get? i = some p →
    grid (gridIndex cellSize gridWidth p.1 p.2) = some i
  sound : ∀ z i, grid z = some i →
    ∃ p, points.get? i = some p ∧ gridIndex cellSize gridWidth p.1 p.2 = z
  activeLt : ∀ a ∈ active, a < points.length

/-- One generator operation of the public API, with its arguments. -/
inductive Op where
  | uniformOp : Op
  | uniformIntOp (min max : ℚ) : Op
  | choiceOp (items : List ℚ) : Op
  | gaussianOp (mean sd : ℝ) : Op
  | poissonOp (lambda : ℝ) : Op
  | poissonDiscOp (width height radius : ℝ) (k : ℕ) : Op

/-- The value returned by one generator operation. -/
inductive OutV where
  | qOut (x : ℚ) : OutV
  | zOut (z : ℤ) : OutV
  | eOut (o : Option ℚ) : OutV
  | rOut (x : ℝ) : OutV
  | nOut (o : Option ℕ) : OutV
  | pOut (o : Option (List (ℝ × ℝ))) : OutV

/-- Apply one operation to the generator state, returning its output and the
mutated state. -/
noncomputable def step : Op → ℚ → OutV × ℚ
  | .uniformOp, s => (.qOut (uniform s).1, (uniform s).2)
  | .uniformIntOp mn mx, s => (.zOut (uniformInt mn mx s).1, (uniformInt mn mx s).2)
  | .choiceOp items, s => (.eOut (choice items s).1, (choice items s).2)
  | .gaussianOp m sd, s => (.rOut (gaussian m sd s).1, (gaussian m sd s).2)
  | .poissonOp lam, s =>
    match poisson lam s with
    | some (n, s') => (.nOut (some n), s')
    | none => (.nOut none, s)
  | .poissonDiscOp w h r k, s =>
    match poissonDisc w h r k s with
    | some (pts, s') => (.pOut (some pts), s')
    | none => (.pOut none, s)

/-- Run a fixed sequence of operation calls against a generator, collecting the
outputs in order. -/
noncomputable def run : List Op → ℚ → List OutV × ℚ
  | [], s => ([], s)
  | op :: ops, s =>
    let r := step op s
    let rest := run ops r.2
    (r.1 :: rest.1, rest.2)

section Bounds

theorem M32_eq_pow : M32 = 2 ^ 32 := by norm_num [M32]

theorem M32_pos : 0 < M32 := by norm_num [M32]

theorem toUint32_lt (q : ℚ) : toUint32 q < M32 := by
  unfold toUint32
  have hM : ((M32 : ℕ) : ℤ) = 4294967296 := by norm_num [M32]
  rw [hM]
  have h1 : jsTrunc q % (4294967296 : ℤ) < 4294967296 :=
    Int.emod_lt_of_pos _ (by norm_num)
  have h0 : 0 ≤ jsTrunc q % (4294967296 : ℤ) := Int.emod_nonneg _ (by norm_num)
  unfold M32
  omega

theorem mix32_lt (t : ℕ) : mix32 t < M32 := by
  unfold mix32
  rw [M32_eq_pow]
  have h1 : ((t ^^^ (t >>> 15)) * (t ||| 1)) % M32 < 2 ^ 32 := by
    rw [← M32_eq_pow]; exact Nat.mod_lt _ M32_pos
  set t1 := ((t ^^^ (t >>> 15)) * (t ||| 1)) % M32 with ht1
  have h2 : (t1 + ((t1 ^^^ (t1 >>> 7)) * (t1 ||| 61)) % M32) % M32 < 2 ^ 32 := by
    rw [← M32_eq_pow]; exact Nat.mod_lt _ M32_pos
  have h3 : t1 ^^^ ((t1 + ((t1 ^^^ (t1 >>> 7)) * (t1 ||| 61)) % M32) % M32) < 2 ^ 32 :=
    Nat.xor_lt_two_pow h1 h2
  set t2 := t1 ^^^ ((t1 + ((t1 ^^^ (t1 >>> 7)) * (t1 ||| 61)) % M32) % M32) with ht2
  have h4 : t2 >>> 14 ≤ t2 := by
    rw [Nat.shiftRight_eq_div_pow]; exact Nat.div_le_self _ _
  exact Nat.xor_lt_two_pow h3 (lt_of_le_of_lt h4 h3)

theorem uniform_nonneg (s : ℚ) : 0 ≤ (uniform s).1 := by
  unfold uniform
  positivity

theorem uniform_lt_one (s : ℚ) : (uniform s).1 < 1 := by
  unfold uniform
  have h := mix32_lt (toUint32 (s + 1831565813))
  rw [div_lt_one (by norm_num)]
  have : (mix32 (toUint32 (s + 1831565813)) : ℚ) < (M32 : ℚ) := by exact_mod_cast h
  simpa [M32] using this

theorem uniform_le_bound (s : ℚ) :
    (uniform s).1 ≤ (4294967295 : ℚ) / 4294967296 := by
  unfold uniform
  have h := mix32_lt (toUint32 (s + 1831565813))
  have h' : (mix32 (toUint32 (s + 1831565813)) : ℚ) ≤ 4294967295 := by
    have : mix32 (toUint32 (s + 1831565813)) ≤ 4294967295 := by
      have := h; unfold M32 at this; omega
    exact_mod_cast this
  exact div_le_div_of_nonneg_right h' (by norm_num) |>.trans_eq rfl

theorem uniform_snd (s : ℚ) : (uniform s).2 = s + 1831565813 := rfl

theorem jsTrunc_intCast (n : ℤ) : jsTrunc (n : ℚ) = n := by
  unfold jsTrunc
  split <;> simp

theorem toUint32_intCast (n : ℤ) : toUint32 (n : ℚ) = (n % 4294967296).toNat := by
  unfold toUint32
  rw [jsTrunc_intCast]
  norm_num [M32]

theorem uniformInt_bounds (mn mx : ℤ) (s : ℚ) (h : mn < mx) :
    mn ≤ (uniformInt (mn : ℚ) (mx : ℚ) s).1 ∧ (uniformInt (mn : ℚ) (mx : ℚ) s).1 < mx := by
  have hu0 := uniform_nonneg s
  have hu1 := uniform_lt_one s
  have hd : (0 : ℚ) < (mx : ℚ) - (mn : ℚ) := by
    have : (mn : ℚ) < (mx : ℚ) := by exact_mod_cast h
    linarith
  constructor
  · show mn ≤ ⌊(uniform s).1 * ((mx : ℚ) - (mn : ℚ)) + (mn : ℚ)⌋
    apply Int.le_floor.mpr
    linarith [mul_nonneg hu0 hd.le]
  · show ⌊(uniform s).1 * ((mx : ℚ) - (mn : ℚ)) + (mn : ℚ)⌋ < mx
    apply Int.floor_lt.mpr
    linarith [mul_lt_of_lt_one_left hd hu1]

theorem uniformInt_le_of_ge (mn mx : ℤ) (s : ℚ) (h : mx ≤ mn) :
    (uniformInt (mn : ℚ) (mx : ℚ) s).1 ≤ mn := by
  have hu0 := uniform_nonneg s
  have hd : (mx : ℚ) - (mn : ℚ) ≤ 0 := by
    have : (mx : ℚ) ≤ (mn : ℚ) := by exact_mod_cast h
    linarith
  show ⌊(uniform s).1 * ((mx : ℚ) - (mn : ℚ)) + (mn : ℚ)⌋ ≤ mn
  have hx : (uniform s).1 * ((mx : ℚ) - (mn : ℚ)) + (mn : ℚ) ≤ (mn : ℚ) := by
    nlinarith
  calc ⌊(uniform s).1 * ((mx : ℚ) - (mn : ℚ)) + (mn : ℚ)⌋
      ≤ ⌊(mn : ℚ)⌋ := Int.floor_le_floor hx
    _ = mn := Int.floor_intCast mn

theorem uniform_le_bound_real (s : ℚ) :
    ((uniform s).1 : ℝ) ≤ (4294967295 : ℝ) / 4294967296 := by
  have h : (((uniform s).1 : ℚ) : ℝ) ≤ (((4294967295 : ℚ) / 4294967296 : ℚ) : ℝ) :=
    Rat.cast_le.mpr (uniform_le_bound s)
  push_cast at h
  exact h

theorem poissonAux_isSome (L : ℝ) (hL : 0 < L) :
    ∀ (n k : ℕ) (p : ℝ) (s : ℚ), 0 ≤ p →
      p * ((4294967295 : ℝ) / 4294967296) ^ n ≤ L →
      ∃ m s', poissonAux L (n + 1) k p s = some (m, s') := by
  intro n
  induction n with
  | zero =>
    intro k p s hp hbound
    simp only [pow_zero, mul_one] at hbound
    simp only [poissonAux]
    split
    · next hgt =>
      exfalso
      have hub' : ((uniform s).1 : ℝ) ≤ (4294967295 : ℝ) / 4294967296 :=
        uniform_le_bound_real s
      have h1 : p * ((uniform s).1 : ℝ) ≤ p * ((4294967295 : ℝ) / 4294967296) :=
        mul_le_mul_of_nonneg_left hub' hp
      have h2 : p * ((4294967295 : ℝ) / 4294967296) ≤ p := by nlinarith
      linarith
    · exact ⟨k + 1 - 1, (uniform s).2, rfl⟩
  | succ n ih =>
    intro k p s hp hbound
    simp only [poissonAux]
    split
    · next hgt =>
      have hub : ((uniform s).1 : ℝ) ≤ (4294967295 : ℝ) / 4294967296 :=
        uniform_le_bound_real s
      have hu0 : (0 : ℝ) ≤ ((uniform s).1 : ℝ) := by
        exact_mod_cast uniform_nonneg s
      exact ih (k + 1) (p * ((uniform s).1 : ℝ)) (uniform s).2
        (mul_nonneg hp hu0)
        (by
          have hq : (0 : ℝ) ≤ ((4294967295 : ℝ) / 4294967296) ^ n := by positivity
          have : p * ((uniform s).1 : ℝ) * ((4294967295 : ℝ) / 4294967296) ^ n ≤
              p * ((4294967295 : ℝ) / 4294967296) ^ (n + 1) := by
            rw [pow_succ]
            nlinarith [mul_le_mul_of_nonneg_left hub hp]
          linarith)
    · exact ⟨k + 1 - 1, (uniform s).2, rfl⟩

theorem poisson_isSome (lambda : ℝ) (s : ℚ) : ∃ m s', poisson lambda s = some (m, s') := by
  unfold poisson pFuel
  apply poissonAux_isSome _ (Real.exp_pos _) _ 0 1 s zero_le_one
  rw [one_mul]
  exact (Nat.find_spec (exists_pow_lt_of_lt_one (Real.exp_pos (-lambda))
    (by norm_num : (4294967295 : ℝ) / 4294967296 < 1))).le

theorem poisson_zero_eq (s : ℚ) : poisson 0 s = some (0, (uniform s).2) := by
  have key : ∀ f : ℕ, poissonAux (Real.exp (-0)) (f + 1) 0 1 s = some (0, (uniform s).2) := by
    intro f
    simp only [poissonAux]
    rw [if_neg]
    have hu1 : ((uniform s).1 : ℝ) < 1 := by exact_mod_cast uniform_lt_one s
    rw [neg_zero, Real.exp_zero, one_mul]
    exact not_lt.mpr hu1.le
  unfold poisson pFuel
  exact key _

end Bounds

section Geometry

theorem csize_pos {r c : ℝ} (hr : 0 < r) (hc : c = r / Real.sqrt 2) : 0 < c := by
  subst hc
  exact div_pos hr (Real.sqrt_pos.mpr (by norm_num))

theorem csize_sq {r c : ℝ} (hc : c = r / Real.sqrt 2) : c * c * 2 = r * r := by
  subst hc
  have hs : Real.sqrt 2 * Real.sqrt 2 = 2 := Real.mul_self_sqrt (by norm_num)
  rw [div_mul_div_comm, hs]
  exact div_mul_cancel₀ _ two_ne_zero

theorem floor_sq_lt {c : ℝ} (hc : 0 < c) {a b : ℝ} (h : ⌊a / c⌋ = ⌊b / c⌋) :
    (a - b) * (a - b) < c * c := by
  have h1 : a / c < ⌊a / c⌋ + 1 := Int.lt_floor_add_one _
  have h2 : (⌊b / c⌋ : ℝ) ≤ b / c := Int.floor_le _
  have h3 : b / c < ⌊b / c⌋ + 1 := Int.lt_floor_add_one _
  have h4 : (⌊a / c⌋ : ℝ) ≤ a / c := Int.floor_le _
  rw [h] at h1 h4
  have hd1 : a / c - b / c < 1 := by linarith
  have hd2 : b / c - a / c < 1 := by linarith
  have e1 : a - b = c * (a / c - b / c) := by field_simp
  rw [e1]
  have hdd : (a / c - b / c) * (a / c - b / c) < 1 := by nlinarith
  nlinarith [mul_pos hc hc]

theorem same_cell_close {r c : ℝ} (hr : 0 < r) (hc : c = r / Real.sqrt 2)
    {p q : ℝ × ℝ} (hx : ⌊p.1 / c⌋ = ⌊q.1 / c⌋) (hy : ⌊p.2 / c⌋ = ⌊q.2 / c⌋) :
    (p.1 - q.1) * (p.1 - q.1) + (p.2 - q.2) * (p.2 - q.2) < r * r := by
  have hcpos := csize_pos hr hc
  have h1 := floor_sq_lt hcpos hx
  have h2 := floor_sq_lt hcpos hy
  have h3 := csize_sq hc
  linarith

theorem cell_range {c : ℝ} (hc : 0 < c) {x w : ℝ} (hx0 : 0 ≤ x) (hxw : x < w) :
    0 ≤ ⌊x / c⌋ ∧ ⌊x / c⌋ < ⌈w / c⌉ := by
  refine ⟨Int.floor_nonneg.mpr (div_nonneg hx0 hc.le), ?_⟩
  rw [Int.lt_ceil]
  calc (⌊x / c⌋ : ℝ) ≤ x / c := Int.floor_le _
    _ < w / c := by exact (div_lt_div_iff_of_pos_right hc).mpr hxw

theorem floor_near_lb {c : ℝ} (hc : 0 < c) {x nx : ℝ}
    (h : (x - nx) * (x - nx) < (c + c) * (c + c)) : ⌊x / c⌋ - 2 ≤ ⌊nx / c⌋ := by
  by_contra hcon
  push_neg at hcon
  have h2 : nx / c < ⌊nx / c⌋ + 1 := Int.lt_floor_add_one _
  have h3 : (⌊x / c⌋ : ℝ) ≤ x / c := Int.floor_le _
  have hle : (⌊nx / c⌋ : ℝ) ≤ (⌊x / c⌋ : ℝ) - 3 := by exact_mod_cast by omega
  have h4 : nx / c < x / c - 2 := by linarith
  have h5 : nx < x - 2 * c := by
    have h6 := mul_lt_mul_of_pos_right h4 hc
    rw [sub_mul, div_mul_cancel₀ _ (ne_of_gt hc), div_mul_cancel₀ _ (ne_of_gt hc)] at h6
    linarith
  have h6 : c + c < x - nx := by linarith
  have h7 : (c + c) * (c + c) < (x - nx) * (x - nx) :=
    mul_lt_mul'' h6 h6 (by linarith) (by linarith)
  linarith

theorem floor_near_ub {c : ℝ} (hc : 0 < c) {x nx : ℝ}
    (h : (x - nx) * (x - nx) < (c + c) * (c + c)) : ⌊nx / c⌋ < ⌊x / c⌋ + 3 := by
  by_contra hcon
  push_neg at hcon
  have h2 : x / c < ⌊x / c⌋ + 1 := Int.lt_floor_add_one _
  have h3 : (⌊nx / c⌋ : ℝ) ≤ nx / c := Int.floor_le _
  have hle : (⌊x / c⌋ : ℝ) + 3 ≤ (⌊nx / c⌋ : ℝ) := by exact_mod_cast hcon
  have h4 : x / c + 2 < nx / c := by linarith
  have h5 : x + 2 * c < nx := by
    have h6 := mul_lt_mul_of_pos_right h4 hc
    rw [add_mul, div_mul_cancel₀ _ (ne_of_gt hc), div_mul_cancel₀ _ (ne_of_gt hc)] at h6
    linarith
  have h6 : c + c < nx - x := by linarith
  have h7 : (c + c) * (c + c) < (nx - x) * (nx - x) :=
    mul_lt_mul'' h6 h6 (by linarith) (by linarith)
  have h8 : (nx - x) * (nx - x) = (x - nx) * (x - nx) := by ring
  rw [h8] at h7
  linarith

theorem flat_inj {gW : ℤ} (hgW : 0 < gW) {i1 j1 i2 j2 : ℤ}
    (hi1 : 0 ≤ i1) (hi1w : i1 < gW) (hi2 : 0 ≤ i2) (hi2w : i2 < gW)
    (h : i1 + j1 * gW = i2 + j2 * gW) : i1 = i2 ∧ j1 = j2 := by
  have hj : j1 = j2 := by
    by_contra hne
    rcases lt_or_gt_of_ne hne with hlt | hgt
    · have h1 : (1 : ℤ) ≤ j2 - j1 := by omega
      have h2 : 1 * gW ≤ (j2 - j1) * gW := mul_le_mul_of_nonneg_right h1 hgW.le
      rw [one_mul, sub_mul] at h2
      linarith
    · have h1 : (1 : ℤ) ≤ j1 - j2 := by omega
      have h2 : 1 * gW ≤ (j1 - j2) * gW := mul_le_mul_of_nonneg_right h1 hgW.le
      rw [one_mul, sub_mul] at h2
      linarith
  subst hj
  exact ⟨by linarith, rfl⟩

theorem flat_range {gW gH : ℤ} {i j : ℤ}
    (hi0 : 0 ≤ i) (hiw : i < gW) (hj0 : 0 ≤ j) (hjh : j < gH) :
    0 ≤ i + j * gW ∧ i + j * gW < gW * gH := by
  have hgW0 : 0 < gW := lt_of_le_of_lt hi0 hiw
  constructor
  · have := mul_nonneg hj0 hgW0.le
    linarith
  · have h1 : j ≤ gH - 1 := by omega
    have h2 : j * gW ≤ (gH - 1) * gW := mul_le_mul_of_nonneg_right h1 hgW0.le
    rw [sub_mul, one_mul] at h2
    have h3 : gH * gW = gW * gH := mul_comm _ _
    linarith

theorem toNat_mul_of_nonneg {a b : ℤ} (ha : 0 ≤ a) (hb : 0 ≤ b) :
    (a * b).toNat = a.toNat * b.toNat := by
  lift a to ℕ using ha
  lift b to ℕ using hb
  exact_mod_cast rfl

end Geometry

section DiscInvariant

theorem uniformInt_toNat_lt (len : ℕ) (hlen : 0 < len) (s : ℚ) :
    (uniformInt 0 (len : ℚ) s).1.toNat < len := by
  have hcast : uniformInt 0 (len : ℚ) s = uniformInt ((0 : ℤ) : ℚ) (((len : ℤ)) : ℚ) s := by
    norm_num
  have hb := uniformInt_bounds 0 (len : ℤ) s (by exact_mod_cast hlen)
  rw [← hcast] at hb
  omega

/-- A candidate accepted by `isValid` keeps squared distance at least `radius²`
to every already placed point: any closer point would sit in the scanned 5×5
cell block and be found through the grid. -/
theorem isValid_spacing {w h r c : ℝ} {gW gH : ℤ}
    {grid : ℤ → Option ℕ} {points : List (ℝ × ℝ)} {active : List ℕ}
    (hr : 0 < r) (hc : c = r / Real.sqrt 2)
    (hgW : gW = ⌈w / c⌉) (hgH : gH = ⌈h / c⌉)
    (inv : PDInv w h r gW gH c grid points active)
    {x y : ℝ} (hv : isValid w h r gW gH c grid points x y) :
    ∀ i p, points.get? i = some p →
      r * r ≤ (x - p.1) * (x - p.1) + (y - p.2) * (y - p.2) := by
  intro i p hip
  by_contra hcon
  push_neg at hcon
  obtain ⟨hx0, hxw, hy0, hyh, hblock⟩ := hv
  have hcpos := csize_pos hr hc
  have hcc := csize_sq hc
  have hpmem : p ∈ points := List.get?_mem hip
  obtain ⟨hpx0, hpxw, hpy0, hpyh⟩ := inv.bounds p hpmem
  have hpi := cell_range hcpos hpx0 hpxw
  have hpj := cell_range hcpos hpy0 hpyh
  rw [← hgW] at hpi
  rw [← hgH] at hpj
  have hsx : (x - p.1) * (x - p.1) < (c + c) * (c + c) := by
    nlinarith [mul_self_nonneg (y - p.2), mul_pos hcpos hcpos]
  have hsy : (y - p.2) * (y - p.2) < (c + c) * (c + c) := by
    nlinarith [mul_self_nonneg (x - p.1), mul_pos hcpos hcpos]
  have hni1 : max (⌊x / c⌋ - 2) 0 ≤ ⌊p.1 / c⌋ := max_le (floor_near_lb hcpos hsx) hpi.1
  have hni2 : ⌊p.1 / c⌋ < min (⌊x / c⌋ + 3) gW := lt_min (floor_near_ub hcpos hsx) hpi.2
  have hnj1 : max (⌊y / c⌋ - 2) 0 ≤ ⌊p.2 / c⌋ := max_le (floor_near_lb hcpos hsy) hpj.1
  have hnj2 : ⌊p.2 / c⌋ < min (⌊y / c⌋ + 3) gH := lt_min (floor_near_ub hcpos hsy) hpj.2
  have hgrid : grid (⌊p.1 / c⌋ + ⌊p.2 / c⌋ * gW) = some i := inv.complete i p hip
  have hfar := hblock ⌊p.1 / c⌋ ⌊p.2 / c⌋ hni1 hni2 hnj1 hnj2 i p hgrid hip
  linarith

/-- Packing bound: the invariant puts distinct placed points in distinct cells
of the `gW × gH` grid, so there are at most `gW * gH` placed points. -/
theorem PDInv.length_le {w h r c : ℝ} {gW gH : ℤ}
    {grid : ℤ → Option ℕ} {points : List (ℝ × ℝ)} {active : List ℕ}
    (hr : 0 < r) (hc : c = r / Real.sqrt 2)
    (hgW : gW = ⌈w / c⌉) (hgH : gH = ⌈h / c⌉) (hgW0 : 0 < gW)
    (inv : PDInv w h r gW gH c grid points active) :
    points.length ≤ (gW * gH).toNat := by
  have hcpos := csize_pos hr hc
  have hcells : ∀ p ∈ points,
      0 ≤ ⌊p.1 / c⌋ ∧ ⌊p.1 / c⌋ < gW ∧ 0 ≤ ⌊p.2 / c⌋ ∧ ⌊p.2 / c⌋ < gH := by
    intro p hp
    obtain ⟨h1, h2, h3, h4⟩ := inv.bounds p hp
    have hcx := cell_range hcpos h1 h2
    have hcy := cell_range hcpos h3 h4
    rw [← hgW] at hcx
    rw [← hgH] at hcy
    exact ⟨hcx.1, hcx.2, hcy.1, hcy.2⟩
  have hnd : (points.map (fun p => gridIndex c gW p.1 p.2)).Nodup := by
    unfold List.Nodup
    rw [List.pairwise_map]
    rw [List.pairwise_iff_get] at *
    intro i j hij heq
    have hd := inv.spaced
    rw [List.pairwise_iff_get] at hd
    have hfar := hd i j hij
    obtain ⟨hi1, hi2, hi3, hi4⟩ := hcells _ (points.get_mem i.1 i.2)
    obtain ⟨hj1, hj2, hj3, hj4⟩ := hcells _ (points.get_mem j.1 j.2)
    unfold gridIndex at heq
    obtain ⟨hx, hy⟩ := flat_inj hgW0 hi1 hi2 hj1 hj2 heq
    have hclose := same_cell_close hr hc hx hy
    linarith
  have hsub : (points.map (fun p => gridIndex c gW p.1 p.2)).toFinset ⊆
      Finset.Ico (0 : ℤ) (gW * gH) := by
    intro z hz
    rw [List.mem_toFinset, List.mem_map] at hz
    obtain ⟨p, hp, rfl⟩ := hz
    obtain ⟨h1, h2, h3, h4⟩ := hcells p hp
    rw [Finset.mem_Ico]
    exact flat_range h1 h2 h3 h4
  have hcard := List.toFinset_card_of_nodup hnd
  have hle := Finset.card_le_card hsub
  rw [hcard, List.length_map] at hle
  rw [Int.card_Ico, sub_zero] at hle
  exact hle

/-- The candidate loop only ever reports a candidate that passed `isValid`. -/
theorem tryCandidates_some_valid {w h r c : ℝ} {gW gH : ℤ}
    {grid : ℤ → Option ℕ} {points : List (ℝ × ℝ)} {px py : ℝ} :
    ∀ (n : ℕ) (s : ℚ) (q : ℝ × ℝ) (s' : ℚ),
      tryCandidates w h r gW gH c grid points px py n s = (some q, s') →
      isValid w h r gW gH c grid points q.1 q.2 := by
  intro n
  induction n with
  | zero =>
    intro s q s' heq
    simp only [tryCandidates] at heq
    have h1 := congrArg Prod.fst heq
    simp at h1
  | succ n ih =>
    intro s q s' heq
    simp only [tryCandidates] at heq
    split at heq
    · next hvalid =>
      have h1 := Option.some.inj (congrArg Prod.fst heq)
      rw [← h1]
      exact hvalid
    · exact ih _ _ _ heq

/-- Placing a candidate that passed `isValid` preserves the loop invariant:
the new point is appended, its grid cell recorded (and that cell was free), and
its index becomes active. -/
theorem PDInv.place {w h r c : ℝ} {gW gH : ℤ}
    {grid : ℤ → Option ℕ} {points : List (ℝ × ℝ)} {active : List ℕ}
    (hr : 0 < r) (hc : c = r / Real.sqrt 2)
    (hgW : gW = ⌈w / c⌉) (hgH : gH = ⌈h / c⌉) (hgW0 : 0 < gW)
    (inv : PDInv w h r gW gH c grid points active)
    {q : ℝ × ℝ} (hv : isValid w h r gW gH c grid points q.1 q.2) :
    PDInv w h r gW gH c
      (fun z => if z = gridIndex c gW q.1 q.2 then some points.length else grid z)
      (points ++ [q]) (active ++ [points.length]) := by
  have hsp := isValid_spacing hr hc hgW hgH inv hv
  obtain ⟨hqx0, hqxw, hqy0, hqyh, _⟩ := hv
  have hcpos := csize_pos hr hc
  have hqcx := cell_range hcpos hqx0 hqxw
  have hqcy := cell_range hcpos hqy0 hqyh
  rw [← hgW] at hqcx
  rw [← hgH] at hqcy
  refine ⟨?_, ?_, ?_, ?_, ?_⟩
  · intro p hp
    rcases List.mem_append.mp hp with hmem | hmem
    · exact inv.bounds p hmem
    · rw [List.mem_singleton] at hmem
      subst hmem
      exact ⟨hqx0, hqxw, hqy0, hqyh⟩
  · rw [List.pairwise_append]
    refine ⟨inv.spaced, List.pairwise_singleton _ _, ?_⟩
    intro a ha b hb
    rw [List.mem_singleton] at hb
    rw [hb]
    obtain ⟨i, hi⟩ := List.mem_iff_get?.mp ha
    have hd := hsp i a hi
    have he : (q.1 - a.1) * (q.1 - a.1) + (q.2 - a.2) * (q.2 - a.2) =
        (a.1 - q.1) * (a.1 - q.1) + (a.2 - q.2) * (a.2 - q.2) := by ring
    linarith
  · intro i p hip
    by_cases hlt : i < points.length
    · rw [List.get?_append hlt] at hip
      have hgi := inv.complete i p hip
      have hpmem := List.get?_mem hip
      obtain ⟨hp1, hp2, hp3, hp4⟩ := inv.bounds p hpmem
      have hpcx := cell_range hcpos hp1 hp2
      have hpcy := cell_range hcpos hp3 hp4
      rw [← hgW] at hpcx
      rw [← hgH] at hpcy
      have hne : gridIndex c gW p.1 p.2 ≠ gridIndex c gW q.1 q.2 := by
        intro heq
        unfold gridIndex at heq
        obtain ⟨hx, hy⟩ := flat_inj hgW0 hpcx.1 hpcx.2 hqcx.1 hqcx.2 heq
        have hclose := same_cell_close hr hc hx hy
        have hd := hsp i p hip
        have he : (q.1 - p.1) * (q.1 - p.1) + (q.2 - p.2) * (q.2 - p.2) =
            (p.1 - q.1) * (p.1 - q.1) + (p.2 - q.2) * (p.2 - q.2) := by ring
        linarith
      show (if gridIndex c gW p.1 p.2 = gridIndex c gW q.1 q.2 then some points.length
        else grid (gridIndex c gW p.1 p.2)) = some i
      rw [if_neg hne]
      exact hgi
    · have hge : points.length ≤ i := le_of_not_lt hlt
      rw [List.get?_append_right hge] at hip
      have hzero : i - points.length = 0 := by
        by_contra hne0
        have h1 : 1 ≤ i - points.length := Nat.pos_of_ne_zero hne0
        have h2 : ([q].get? (i - points.length)) = none :=
          List.get?_eq_none.mpr (by simpa using h1)
        rw [h2] at hip
        exact Option.noConfusion hip
      rw [hzero] at hip
      have hqp : q = p := by simpa using hip
      subst hqp
      show (if gridIndex c gW q.1 q.2 = gridIndex c gW q.1 q.2 then some points.length
        else grid (gridIndex c gW q.1 q.2)) = some i
      rw [if_pos rfl]
      have : i = points.length := by omega
      rw [this]
  · intro z i hz
    by_cases hzq : z = gridIndex c gW q.1 q.2
    · subst hzq
      have hz' : some points.length = some i := by
        simpa using hz
      have hi : i = points.length := (Option.some.inj hz').symm
      subst hi
      refine ⟨q, ?_, rfl⟩
      rw [List.get?_append_right (le_refl _)]
      simp
    · have hz' : grid z = some i := by
        have : (if z = gridIndex c gW q.1 q.2 then some points.length else grid z) =
            some i := hz
        rwa [if_neg hzq] at this
      obtain ⟨p, hp, hpz⟩ := inv.sound z i hz'
      refine ⟨p, ?_, hpz⟩
      have hlt : i < points.length := (List.get?_eq_some.mp hp).1
      rw [List.get?_append hlt]
      exact hp
  · intro a ha
    rw [List.length_append, List.length_singleton]
    rcases List.mem_append.mp ha with ha | ha
    · have := inv.activeLt a ha
      omega
    · rw [List.mem_singleton] at ha
      subst ha
      omega

/-- Retiring an active point (splice) preserves the loop invariant. -/
theorem PDInv.retire {w h r c : ℝ} {gW gH : ℤ}
    {grid : ℤ → Option ℕ} {points : List (ℝ × ℝ)} {active : List ℕ}
    (inv : PDInv w h r gW gH c grid points active) (n : ℕ) :
    PDInv w h r gW gH c grid points (active.eraseIdx n) :=
  ⟨inv.bounds, inv.spaced, inv.complete, inv.sound,
    fun a ha => inv.activeLt a (List.eraseIdx_subset _ _ ha)⟩

/-- The invariant after seeding: one in-bounds point, marked in its cell and
active. -/
theorem PDInv.start {w h r c : ℝ} {gW gH : ℤ} {x0 y0 : ℝ}
    (hx0 : 0 ≤ x0) (hxw : x0 < w) (hy0 : 0 ≤ y0) (hyh : y0 < h) :
    PDInv w h r gW gH c
      (fun z => if z = gridIndex c gW x0 y0 then some 0 else none) [(x0, y0)] [0] := by
  refine ⟨?_, ?_, ?_, ?_, ?_⟩
  · intro p hp
    rw [List.mem_singleton] at hp
    subst hp
    exact ⟨hx0, hxw, hy0, hyh⟩
  · exact List.pairwise_singleton _ _
  · intro i p hip
    cases i with
    | zero =>
      have hp : (x0, y0) = p := by simpa using hip
      subst hp
      show (if gridIndex c gW x0 y0 = gridIndex c gW x0 y0 then some 0 else none) = some 0
      rw [if_pos rfl]
    | succ n => simp at hip
  · intro z i hz
    by_cases hzq : z = gridIndex c gW x0 y0
    · subst hzq
      have hz' : some 0 = some i := by simpa using hz
      have hi : i = 0 := (Option.some.inj hz').symm
      subst hi
      exact ⟨(x0, y0), by simp, rfl⟩
    · exfalso
      have hz' : (none : Option ℕ) = some i := by
        have : (if z = gridIndex c gW x0 y0 then some 0 else none) = some i := hz
        rwa [if_neg hzq] at this
      exact Option.noConfusion hz'
  · intro a ha
    rw [List.mem_singleton] at ha
    subst ha
    simp

theorem pdLoop_succ_empty {w h r c : ℝ} {gW gH : ℤ} {k fuel : ℕ}
    {grid : ℤ → Option ℕ} {points : List (ℝ × ℝ)} {active : List ℕ} {s : ℚ}
    (hact : active.length = 0) :
    pdLoop w h r k gW gH c (fuel + 1) grid points active s = some (points, s) := by
  simp only [pdLoop]
  rw [if_pos hact]

theorem pdLoop_succ_found {w h r c : ℝ} {gW gH : ℤ} {k fuel : ℕ}
    {grid : ℤ → Option ℕ} {points : List (ℝ × ℝ)} {active : List ℕ} {s : ℚ}
    (hact : ¬ active.length = 0) {q : ℝ × ℝ} {s2 : ℚ}
    (hq : tryCandidates w h r gW gH c grid points
        (points.getD (active.getD (uniformInt 0 (active.length : ℚ) s).1.toNat 0) (0, 0)).1
        (points.getD (active.getD (uniformInt 0 (active.length : ℚ) s).1.toNat 0) (0, 0)).2
        k (uniformInt 0 (active.length : ℚ) s).2 = (some q, s2)) :
    pdLoop w h r k gW gH c (fuel + 1) grid points active s =
      pdLoop w h r k gW gH c fuel
        (fun z => if z = gridIndex c gW q.1 q.2 then some points.length else grid z)
        (points ++ [q]) (active ++ [points.length]) s2 := by
  simp only [pdLoop]
  rw [if_neg hact, hq]

theorem pdLoop_succ_none {w h r c : ℝ} {gW gH : ℤ} {k fuel : ℕ}
    {grid : ℤ → Option ℕ} {points : List (ℝ × ℝ)} {active : List ℕ} {s : ℚ}
    (hact : ¬ active.length = 0) {s2 : ℚ}
    (hq : tryCandidates w h r gW gH c grid points
        (points.getD (active.getD (uniformInt 0 (active.length : ℚ) s).1.toNat 0) (0, 0)).1
        (points.getD (active.getD (uniformInt 0 (active.length : ℚ) s).1.toNat 0) (0, 0)).2
        k (uniformInt 0 (active.length : ℚ) s).2 = (none, s2)) :
    pdLoop w h r k gW gH c (fuel + 1) grid points active s =
      pdLoop w h r k gW gH c fuel grid points
        (active.eraseIdx (uniformInt 0 (active.length : ℚ) s).1.toNat) s2 := by
  simp only [pdLoop]
  rw [if_neg hact, hq]

/-- Main loop induction: given the invariant and fuel above the decreasing
measure `2 * (cells - points) + actives`, the loop reaches the empty active
set and the returned list satisfies bounds and spacing. -/
theorem pdLoop_total {w h r c : ℝ} {gW gH : ℤ} (k : ℕ)
    (hr : 0 < r) (hc : c = r / Real.sqrt 2)
    (hgW : gW = ⌈w / c⌉) (hgH : gH = ⌈h / c⌉) (hgW0 : 0 < gW) :
    ∀ (fuel : ℕ) (grid : ℤ → Option ℕ) (points : List (ℝ × ℝ)) (active : List ℕ)
      (s : ℚ),
      PDInv w h r gW gH c grid points active →
      2 * ((gW * gH).toNat - points.length) + active.length < fuel →
      ∃ pts s', pdLoop w h r k gW gH c fuel grid points active s = some (pts, s') ∧
        (∀ p ∈ pts, 0 ≤ p.1 ∧ p.1 < w ∧ 0 ≤ p.2 ∧ p.2 < h) ∧
        pts.Pairwise (fun p q =>
          r * r ≤ (p.1 - q.1) * (p.1 - q.1) + (p.2 - q.2) * (p.2 - q.2)) := by
  intro fuel
  induction fuel with
  | zero =>
    intro grid points active s _ hm
    omega
  | succ fuel ih =>
    intro grid points active s inv hm
    by_cases hact : active.length = 0
    · exact ⟨points, s, pdLoop_succ_empty hact, inv.bounds, inv.spaced⟩
    · have hlenpos : 0 < active.length := Nat.pos_of_ne_zero hact
      rcases htc : tryCandidates w h r gW gH c grid points
          (points.getD (active.getD (uniformInt 0 (active.length : ℚ) s).1.toNat 0) (0, 0)).1
          (points.getD (active.getD (uniformInt 0 (active.length : ℚ) s).1.toNat 0) (0, 0)).2
          k (uniformInt 0 (active.length : ℚ) s).2 with ⟨o, s2⟩
      cases o with
      | some q =>
        have hv := tryCandidates_some_valid k _ q s2 htc
        have inv' := PDInv.place hr hc hgW hgH hgW0 inv hv
        have hlen1 : points.length + 1 ≤ (gW * gH).toNat := by
          have hL := PDInv.length_le hr hc hgW hgH hgW0 inv'
          rw [List.length_append, List.length_singleton] at hL
          exact hL
        have hm' : 2 * ((gW * gH).toNat - (points ++ [q]).length) +
            (active ++ [points.length]).length < fuel := by
          rw [List.length_append, List.length_singleton,
            List.length_append, List.length_singleton]
          omega
        obtain ⟨pts, s', heq, hb, hp⟩ := ih _ _ _ s2 inv' hm'
        refine ⟨pts, s', ?_, hb, hp⟩
        rw [pdLoop_succ_found hact htc]
        exact heq
      | none =>
        have inv' := PDInv.retire inv (uniformInt 0 (active.length : ℚ) s).1.toNat
        have hrandlt : (uniformInt 0 (active.length : ℚ) s).1.toNat < active.length :=
          uniformInt_toNat_lt _ hlenpos s
        have hm' : 2 * ((gW * gH).toNat - points.length) +
            (active.eraseIdx (uniformInt 0 (active.length : ℚ) s).1.toNat).length <
            fuel := by
          rw [List.length_eraseIdx_of_lt hrandlt]
          omega
        obtain ⟨pts, s', heq, hb, hp⟩ := ih _ _ _ s2 inv' hm'
        refine ⟨pts, s', ?_, hb, hp⟩
        rw [pdLoop_succ_none hact htc]
        exact heq

/-- `poissonDisc` under positive dimensions: it terminates with `some`, and the
returned points are in bounds and pairwise at squared distance ≥ `radius²`. -/
theorem poissonDisc_spec (w h r : ℝ) (k : ℕ) (s : ℚ)
    (hw : 0 < w) (hh : 0 < h) (hr : 0 < r) :
    ∃ pts s', poissonDisc w h r k s = some (pts, s') ∧
      (∀ p ∈ pts, 0 ≤ p.1 ∧ p.1 < w ∧ 0 ≤ p.2 ∧ p.2 < h) ∧
      pts.Pairwise (fun p q =>
        r * r ≤ (p.1 - q.1) * (p.1 - q.1) + (p.2 - q.2) * (p.2 - q.2)) := by
  have hcpos : 0 < r / Real.sqrt 2 := csize_pos hr rfl
  have hgW0 : 0 < ⌈w / (r / Real.sqrt 2)⌉ := Int.ceil_pos.mpr (div_pos hw hcpos)
  have hgH0 : 0 < ⌈h / (r / Real.sqrt 2)⌉ := Int.ceil_pos.mpr (div_pos hh hcpos)
  have hu0 : (0 : ℝ) ≤ ((uniform s).1 : ℝ) := by exact_mod_cast uniform_nonneg s
  have hu1 : ((uniform s).1 : ℝ) < 1 := by exact_mod_cast uniform_lt_one s
  have hv0 : (0 : ℝ) ≤ ((uniform (uniform s).2).1 : ℝ) := by
    exact_mod_cast uniform_nonneg (uniform s).2
  have hv1 : ((uniform (uniform s).2).1 : ℝ) < 1 := by
    exact_mod_cast uniform_lt_one (uniform s).2
  have hx0 : 0 ≤ ((uniform s).1 : ℝ) * w := mul_nonneg hu0 hw.le
  have hxw : ((uniform s).1 : ℝ) * w < w := mul_lt_of_lt_one_left hw hu1
  have hy0 : 0 ≤ ((uniform (uniform s).2).1 : ℝ) * h := mul_nonneg hv0 hh.le
  have hyh : ((uniform (uniform s).2).1 : ℝ) * h < h := mul_lt_of_lt_one_left hh hv1
  have hinv := @PDInv.start w h r (r / Real.sqrt 2) ⌈w / (r / Real.sqrt 2)⌉
    ⌈h / (r / Real.sqrt 2)⌉ _ _ hx0 hxw hy0 hyh
  have h1 : 1 ≤ (⌈w / (r / Real.sqrt 2)⌉).toNat := by omega
  have h2 : 1 ≤ (⌈h / (r / Real.sqrt 2)⌉).toNat := by omega
  have hP : 1 ≤ (⌈w / (r / Real.sqrt 2)⌉).toNat * (⌈h / (r / Real.sqrt 2)⌉).toNat := by
    calc 1 = 1 * 1 := rfl
      _ ≤ _ := Nat.mul_le_mul h1 h2
  have hmeas : 2 * ((⌈w / (r / Real.sqrt 2)⌉ * ⌈h / (r / Real.sqrt 2)⌉).toNat -
      ([(((uniform s).1 : ℝ) * w, ((uniform (uniform s).2).1 : ℝ) * h)] :
        List (ℝ × ℝ)).length) + ([0] : List ℕ).length <
      2 * ((⌈w / (r / Real.sqrt 2)⌉).toNat * (⌈h / (r / Real.sqrt 2)⌉).toNat) := by
    rw [toNat_mul_of_nonneg hgW0.le hgH0.le, List.length_singleton, List.length_singleton]
    generalize (⌈w / (r / Real.sqrt 2)⌉).toNat * (⌈h / (r / Real.sqrt 2)⌉).toNat = P at hP ⊢
    omega
  obtain ⟨pts, s', heq, hb, hp⟩ := pdLoop_total k hr rfl rfl rfl hgW0 _ _ _ _
    (uniform (uniform s).2).2 hinv hmeas
  refine ⟨pts, s', ?_, hb, hp⟩
  simp only [poissonDisc]
  exact heq

end DiscInvariant

section ClaimTheorems

/-- C1: for every seed `s`, two `RNG` instances constructed with seed `s`
produce identical output sequences for any fixed sequence of operation calls
(`uniform`, `uniformInt`, `choice`, `gaussian`, `poisson`, `poissonDisc`):
the `n`-th result of each operation sequence is equal across the two runs. -/
theorem C1_determinism (ops : List Op) (s₁ s₂ : ℚ) (h : s₁ = s₂) (n : ℕ) :
    ((run ops (mkRNG s₁)).1).get? n = ((run ops (mkRNG s₂)).1).get? n := by
  rw [h]

theorem C1_determinism_witness :
    ((run [Op.uniformOp, Op.uniformIntOp 0 5] (mkRNG 42)).1).get? 0 =
      ((run [Op.uniformOp, Op.uniformIntOp 0 5] (mkRNG 42)).1).get? 0 :=
  C1_determinism [Op.uniformOp, Op.uniformIntOp 0 5] 42 42 rfl 0

/-- C2: for every generator state (negative and fractional states included),
`uniform()` returns an unsigned 32-bit integer divided by 4294967296, hence a
value in `[0, 1)`; it always returns a value. -/
theorem C2_uniform_range (s : ℚ) :
    ∃ r : ℕ, r < 4294967296 ∧ (uniform s).1 = (r : ℚ) / 4294967296 ∧
      0 ≤ (uniform s).1 ∧ (uniform s).1 < 1 := by
  refine ⟨mix32 (toUint32 (s + 1831565813)), ?_, rfl, uniform_nonneg s, uniform_lt_one s⟩
  have := mix32_lt (toUint32 (s + 1831565813))
  unfold M32 at this
  exact this

/-- C5 (counterexample): `uniform()` does NOT store the state reduced
mod 2^32.  From state 4294967295 one call stores 6126533108 = 4294967295 +
0x6D2B79F5, which is not a 32-bit value (the claim would require storing
1831565812). -/
theorem C5_counterexample :
    (uniform 4294967295).2 = 6126533108 ∧ ¬ ((uniform 4294967295).2 < 4294967296) := by
  rw [uniform_snd]
  norm_num

/-- C5 (amended): every call advances the stored state by plain, unreduced
addition of 0x6D2B79F5; the reduction mod 2^32 happens only when the state
enters the bit mixing, so the returned value is periodic in the state with
period 2^32 (wraparound semantics hold for the output, not for the stored
state). -/
theorem C5_state_advance (s : ℚ) (z : ℤ) :
    (uniform s).2 = s + 1831565813 ∧
    (uniform (z : ℚ)).1 = (uniform ((z : ℚ) + 4294967296)).1 := by
  refine ⟨uniform_snd s, ?_⟩
  have h1 : ((z : ℚ) + 1831565813) = ((z + 1831565813 : ℤ) : ℚ) := by push_cast; ring
  have h2 : ((z : ℚ) + 4294967296 + 1831565813) =
      ((z + 4294967296 + 1831565813 : ℤ) : ℚ) := by push_cast; ring
  have key : toUint32 ((z : ℚ) + 1831565813) =
      toUint32 ((z : ℚ) + 4294967296 + 1831565813) := by
    rw [h1, h2, toUint32_intCast, toUint32_intCast]
    omega
  show ((mix32 (toUint32 ((z : ℚ) + 1831565813)) : ℕ) : ℚ) / 4294967296 =
    ((mix32 (toUint32 ((z : ℚ) + 4294967296 + 1831565813)) : ℕ) : ℚ) / 4294967296
  rw [key]

/-- C6 (counterexample): with `max = min = 0` the call `uniformInt(0, 0)`
returns `floor(uniform() * 0 + 0) = 0 = min`, which is not below `min`,
refuting "when max <= min the returned value is below min". -/
theorem C6_counterexample : ¬ ((uniformInt 0 0 (42 : ℚ)).1 < 0) := by
  have h : (uniformInt 0 0 (42 : ℚ)).1 = 0 := by
    simp [uniformInt]
  rw [h]
  omega

/-- C6 (amended): `uniformInt(min, max)` returns
`floor(uniform() * (max - min) + min)`; for integers `min < max` this is an
integer in `[min, max)` (never `max`), and when `max <= min` the returned
value is at most `min` (it equals `min` whenever the uniform draw is 0), with
no clamping applied. -/
theorem C6_uniformInt_range (mn mx : ℤ) (s : ℚ) :
    (uniformInt (mn : ℚ) (mx : ℚ) s).1 =
      ⌊(uniform s).1 * ((mx : ℚ) - (mn : ℚ)) + (mn : ℚ)⌋ ∧
    (mn < mx → mn ≤ (uniformInt (mn : ℚ) (mx : ℚ) s).1 ∧
      (uniformInt (mn : ℚ) (mx : ℚ) s).1 < mx) ∧
    (mx ≤ mn → (uniformInt (mn : ℚ) (mx : ℚ) s).1 ≤ mn) :=
  ⟨rfl, fun h => uniformInt_bounds mn mx s h, fun h => uniformInt_le_of_ge mn mx s h⟩

theorem C6_uniformInt_range_witness :
    0 ≤ (uniformInt ((0 : ℤ) : ℚ) ((5 : ℤ) : ℚ) 42).1 ∧
      (uniformInt ((0 : ℤ) : ℚ) ((5 : ℤ) : ℚ) 42).1 < 5 :=
  (C6_uniformInt_range 0 5 42).2.1 (by decide)

/-- C7: `gaussian(mean, sd)` advances the state exactly twice (two uniform
draws), uses `u = 1 - uniform()` which lies in `(0, 1]` so the logarithm is
taken at a positive argument, returns
`sqrt(-2 ln u) * cos(2 π v) * sd + mean`, and `gaussian(m, 0)` returns
exactly `m`. -/
theorem C7_gaussian_spec (mean sd : ℝ) (s : ℚ) :
    (gaussian mean sd s).2 = (uniform (uniform s).2).2 ∧
    (0 < 1 - ((uniform s).1 : ℝ) ∧ 1 - ((uniform s).1 : ℝ) ≤ 1) ∧
    (gaussian mean sd s).1 =
      Real.sqrt (-2 * Real.log (1 - ((uniform s).1 : ℝ))) *
        Real.cos (2 * Real.pi * ((uniform (uniform s).2).1 : ℝ)) * sd + mean ∧
    (gaussian mean 0 s).1 = mean := by
  refine ⟨rfl, ⟨?_, ?_⟩, rfl, ?_⟩
  · have : ((uniform s).1 : ℝ) < 1 := by exact_mod_cast uniform_lt_one s
    linarith
  · have : (0 : ℝ) ≤ ((uniform s).1 : ℝ) := by exact_mod_cast uniform_nonneg s
    linarith
  · show Real.sqrt _ * Real.cos _ * 0 + mean = mean
    rw [mul_zero, zero_add]

/-- C8: `poisson(0)` returns 0 after exactly one uniform draw (with
`L = exp(-0) = 1` the do-while body runs once, since the draw is strictly
below 1), and for every `lambda >= 0` the call `poisson(lambda)` terminates
with a natural-number (hence non-negative integer) result. -/
theorem C8_poisson_spec (lambda : ℝ) (s : ℚ) (_hl : 0 ≤ lambda) :
    poisson 0 s = some (0, (uniform s).2) ∧
    ∃ m s', poisson lambda s = some (m, s') :=
  ⟨poisson_zero_eq s, poisson_isSome lambda s⟩

theorem C8_poisson_spec_witness :
    poisson 0 42 = some (0, (uniform 42).2) ∧ ∃ m s', poisson 1 42 = some (m, s') :=
  ⟨(C8_poisson_spec 1 42 (by norm_num)).1, (C8_poisson_spec 1 42 (by norm_num)).2⟩

/-- C9: `choice(items)` on a non-empty array returns
`items[uniformInt(0, items.length)]`, an element of `items`; on the empty
array the unguarded out-of-bounds index yields JS `undefined`, modelled as
`none`. -/
theorem C9_choice_spec (items : List ℚ) (s : ℚ) :
    (items ≠ [] → ∃ a, (choice items s).1 = some a ∧ a ∈ items) ∧
    (choice ([] : List ℚ) s).1 = none := by
  constructor
  · intro hne
    have hlen : 0 < items.length := List.length_pos.mpr hne
    have hcast : (uniformInt 0 (items.length : ℚ) s) =
        uniformInt ((0 : ℤ) : ℚ) (((items.length : ℤ)) : ℚ) s := by
      norm_num
    have hb := uniformInt_bounds 0 (items.length : ℤ) s (by exact_mod_cast hlen)
    rw [← hcast] at hb
    obtain ⟨h0, h1⟩ := hb
    have hidx : (uniformInt 0 (items.length : ℚ) s).1.toNat < items.length := by
      omega
    refine ⟨items.get ⟨(uniformInt 0 (items.length : ℚ) s).1.toNat, hidx⟩, ?_, ?_⟩
    · show items.get? _ = _
      exact List.get?_eq_get hidx
    · exact List.get_mem items _ hidx
  · show (List.get? [] _, _).1 = none
    simp

theorem C9_choice_spec_witness :
    ∃ a, (choice [(1 : ℚ), 2, 3] 7).1 = some a ∧ a ∈ [(1 : ℚ), 2, 3] :=
  (C9_choice_spec [(1 : ℚ), 2, 3] 7).1 (by simp)

/-- C10: `normalize(vector)` returns the vector unchanged whenever its
magnitude is zero — the division by the magnitude is behind an explicit zero
check, so `normalize` is total and never divides by zero. -/
theorem C10_normalize_zero (v : List ℝ) (h : magnitude v = 0) : normalize v = v := by
  simp only [normalize]
  rw [if_pos h]

theorem C10_normalize_zero_witness : normalize [0, 0] = [0, 0] :=
  C10_normalize_zero [0, 0] (by simp [magnitude])

/-- C3: for positive width, height and radius, every point returned by
`poissonDisc(width, height, radius, k)` lies in `[0, width) × [0, height)`,
and every pair of distinct returned points has Euclidean distance at least
`radius`. -/
theorem C3_poissonDisc_points (w h r : ℝ) (k : ℕ) (s : ℚ)
    (hw : 0 < w) (hh : 0 < h) (hr : 0 < r) :
    ∀ pts s', poissonDisc w h r k s = some (pts, s') →
      (∀ p ∈ pts, 0 ≤ p.1 ∧ p.1 < w ∧ 0 ≤ p.2 ∧ p.2 < h) ∧
      pts.Pairwise (fun p q =>
        r ≤ Real.sqrt ((p.1 - q.1) ^ 2 + (p.2 - q.2) ^ 2)) := by
  intro pts s' heq
  obtain ⟨pts0, s0, heq0, hb, hp⟩ := poissonDisc_spec w h r k s hw hh hr
  rw [heq] at heq0
  obtain ⟨rfl, rfl⟩ : pts = pts0 ∧ s' = s0 := by
    have := Option.some.inj heq0
    exact ⟨congrArg Prod.fst this, congrArg Prod.snd this⟩
  refine ⟨hb, hp.imp ?_⟩
  intro p q hpq
  rw [Real.le_sqrt' hr]
  nlinarith [hpq]

theorem C3_poissonDisc_points_witness :
    ∃ pts s', poissonDisc 10 10 1 30 42 = some (pts, s') ∧
      (∀ p ∈ pts, 0 ≤ p.1 ∧ p.1 < 10 ∧ 0 ≤ p.2 ∧ p.2 < 10) ∧
      pts.Pairwise (fun p q =>
        (1 : ℝ) ≤ Real.sqrt ((p.1 - q.1) ^ 2 + (p.2 - q.2) ^ 2)) := by
  obtain ⟨pts, s', heq, _, _⟩ :=
    poissonDisc_spec 10 10 1 30 42 (by norm_num) (by norm_num) (by norm_num)
  obtain ⟨hb, hp⟩ := C3_poissonDisc_points 10 10 1 30 42 (by norm_num) (by norm_num)
    (by norm_num) pts s' heq
  exact ⟨pts, s', heq, hb, hp⟩

/-- C4: for positive width, height, radius and `k ≥ 1`, `poissonDisc`
terminates: the active-set loop empties within the fuel bound
`2 * gridWidth * gridHeight` because each iteration either places a new point
(at most one per grid cell fits under the minimum-distance constraint) or
retires one active point. -/
theorem C4_poissonDisc_terminates (w h r : ℝ) (k : ℕ) (s : ℚ)
    (hw : 0 < w) (hh : 0 < h) (hr : 0 < r) (_hk : 1 ≤ k) :
    ∃ pts s', poissonDisc w h r k s = some (pts, s') := by
  obtain ⟨pts, s', heq, _, _⟩ := poissonDisc_spec w h r k s hw hh hr
  exact ⟨pts, s', heq⟩

theorem C4_poissonDisc_terminates_witness :
    ∃ pts s', poissonDisc 10 10 1 30 42 = some (pts, s') :=
  C4_poissonDisc_terminates 10 10 1 30 42 (by norm_num) (by norm_num) (by norm_num)
    (by norm_num)

end ClaimTheorems

end Replicad
